import Mathlib

/-!
Verification of the latency-probe / fastest-server core of the `pypia`
repository (files `pia_toolkit.py` and `pypia/pypia.py`).

The Python code is shallowly embedded: strings are `String`, Python dicts
(which preserve insertion order) are association lists `List (k × v)` with
Python's update-in-place / append-new semantics, millisecond latencies are
`ℚ`, threads plus `Queue.join` are modelled by an explicit list of
(queue entry, probe outcome) pairs together with the put/task_done counters
of `queue.Queue`, and Python exceptions are `Except` errors.
-/

namespace Pypia

/-! ### Python string primitives -/

/-- Python's substring test `needle in hay`. -/
def strContains (hay needle : String) : Bool :=
  decide (needle.toList <:+: hay.toList)

/-- Worker for Python's `str.split(sep)` on character lists: scan left to
right; whenever `sep` matches at the current position (non-overlapping,
leftmost match), emit the accumulated segment and continue after the
separator.  `cur` holds the current segment in reverse. -/
def pySplitGo (sep : List Char) (cur : List Char) : List Char → List (List Char)
  | [] => [cur.reverse]
  | c :: rest =>
    if sep ≠ [] ∧ List.isPrefixOf sep (c :: rest) then
      cur.reverse :: pySplitGo sep [] (rest.drop (sep.length - 1))
    else
      pySplitGo sep (c :: cur) rest
termination_by s => s.length
decreasing_by
  · simp only [List.length_drop, List.length_cons]
    omega
  · simp only [List.length_cons]
    omega

/-- Python's `s.split(sep)` for a non-empty separator. -/
def pySplit (s sep : String) : List String :=
  (pySplitGo sep.toList [] s.toList).map String.mk

/-- Python's `s.split(' - ')[-1]` (`pia_toolkit.py` line 82):
the segment after the last separator found by the left-to-right scan. -/
def lastSeg (s : String) : String :=
  (pySplit s " - ").getLastD ""

/-- Python's `s.split(':')[0]` (`pia_toolkit.py` line 87):
the segment before the first `':'`. -/
def beforeColon (s : String) : String :=
  (pySplit s ":").headD ""

/-! ### Python dict primitives (insertion-ordered association lists) -/

/-- Python's `d[k] = v`: an existing key keeps its position and gets the new
value; a new key is appended at the end. -/
def dictInsert (d : List (String × α)) (k : String) (v : α) : List (String × α) :=
  if d.any (fun p => p.1 == k) then
    d.map (fun p => if p.1 == k then (k, v) else p)
  else
    d ++ [(k, v)]

/-- Python's `d.get(k)` / `d[k]` lookup, as an `Option`. -/
def pyDictGet (d : List (String × α)) (k : String) : Option α :=
  (d.find? (fun p => p.1 == k)).map (fun p => p.2)

/-! ### `get_pia_connections` (`pia_toolkit.py` lines 26–36)

`sysCons` models the directory listing of
`/etc/NetworkManager/system-connections/`. -/

def get_pia_connections (region : String) (sysCons : List String) : List String :=
  let searchTerm := if region == "us" then "PIA - US" else "PIA - "
  if region == "int" then
    sysCons.filter (fun i => strContains i searchTerm && !(strContains i "US"))
  else
    sysCons.filter (fun i => strContains i searchTerm)

/-! ### Properties of the embedded `str.split` -/

theorem isPrefixOf_true_iff {l₁ l₂ : List Char} :
    List.isPrefixOf l₁ l₂ = true ↔ l₁ <+: l₂ :=
  List.isPrefixOf_iff_prefix

theorem singleton_infix_iff_mem {c : Char} {l : List Char} :
    [c] <:+: l ↔ c ∈ l := by
  constructor
  · rintro ⟨s, t, rfl⟩
    simp
  · intro h
    obtain ⟨s, t, rfl⟩ := List.mem_iff_append.mp h
    exact ⟨s, t, by simp⟩

theorem pySplitGo_ne_nil (sep cur s : List Char) : pySplitGo sep cur s ≠ [] := by
  induction cur, s using pySplitGo.induct sep with
  | case1 cur => simp [pySplitGo]
  | case2 cur c rest h ih =>
    unfold pySplitGo
    simp [h]
  | case3 cur c rest h ih =>
    unfold pySplitGo
    rw [if_neg h]
    exact ih

/-- A chunk containing no separator occurrence is returned as one segment. -/
theorem pySplitGo_eq_single (sep : List Char) :
    ∀ cur s : List Char, ¬ (sep <:+: s) → pySplitGo sep cur s = [cur.reverse ++ s] := by
  intro cur s
  induction cur, s using pySplitGo.induct sep with
  | case1 cur => intro _; simp [pySplitGo]
  | case2 cur c rest h ih =>
    intro hno
    exact absurd (isPrefixOf_true_iff.mp h.2).isInfix hno
  | case3 cur c rest h ih =>
    intro hno
    unfold pySplitGo
    rw [if_neg h, ih]
    · simp
    · intro hinf
      exact hno (hinf.trans (List.suffix_cons c rest).isInfix)

/-- Scan invariant: no segment produced by the split contains an occurrence
of the separator.  If one started inside the accumulated prefix `cur`, the
left-to-right scan would already have split there; the hypothesis records
this relation between the accumulator and the unread input `s`. -/
theorem pySplitGo_seg_no_sep (sep : List Char) (hsep : sep ≠ []) :
    ∀ cur s : List Char,
      (∀ a b : List Char, cur.reverse = a ++ b → b ≠ [] →
        List.isPrefixOf sep (b ++ s) = false) →
      ∀ seg ∈ pySplitGo sep cur s, ¬ (sep <:+: seg) := by
  intro cur s
  induction cur, s using pySplitGo.induct sep with
  | case1 cur =>
    intro inv seg hseg
    unfold pySplitGo at hseg
    rw [List.mem_singleton] at hseg
    subst hseg
    rintro ⟨a, t, hat⟩
    have hfalse := inv a (sep ++ t) (by rw [← hat, List.append_assoc]) (by simp [hsep])
    have htrue : List.isPrefixOf sep ((sep ++ t) ++ []) = true :=
      isPrefixOf_true_iff.mpr ⟨t ++ [], by simp⟩
    rw [htrue] at hfalse
    exact Bool.noConfusion hfalse
  | case2 cur c rest h ih =>
    intro inv seg hseg
    unfold pySplitGo at hseg
    rw [if_pos h, List.mem_cons] at hseg
    rcases hseg with hseg | hseg
    · subst hseg
      rintro ⟨a, t, hat⟩
      have hfalse := inv a (sep ++ t) (by rw [← hat, List.append_assoc]) (by simp [hsep])
      have htrue : List.isPrefixOf sep ((sep ++ t) ++ (c :: rest)) = true :=
        isPrefixOf_true_iff.mpr ⟨t ++ (c :: rest), by simp⟩
      rw [htrue] at hfalse
      exact Bool.noConfusion hfalse
    · refine ih ?_ seg hseg
      intro a b hab hbne
      rw [List.reverse_nil] at hab
      exact absurd (List.append_eq_nil.mp hab.symm).2 hbne
  | case3 cur c rest h ih =>
    intro inv seg hseg
    unfold pySplitGo at hseg
    rw [if_neg h] at hseg
    have hpf : List.isPrefixOf sep (c :: rest) = false := by
      cases h' : List.isPrefixOf sep (c :: rest) with
      | false => rfl
      | true => exact absurd ⟨hsep, h'⟩ h
    refine ih ?_ seg hseg
    intro a b hab hbne
    rw [List.reverse_cons] at hab
    have hrev := congrArg List.reverse hab
    simp only [List.reverse_append, List.reverse_cons, List.reverse_nil,
      List.nil_append, List.reverse_reverse, List.singleton_append] at hrev
    cases hb : b.reverse with
    | nil => exact absurd (List.reverse_eq_nil_iff.mp hb) hbne
    | cons x xs =>
      rw [hb, List.cons_append] at hrev
      obtain ⟨hx, hcur⟩ := List.cons.injEq .. ▸ hrev
      have hbval : b = xs.reverse ++ [c] := by
        rw [← List.reverse_reverse b, hb, hx, List.reverse_cons]
      cases xs with
      | nil =>
        rw [hbval]
        simpa using hpf
      | cons z zs =>
        have hinv := inv a ((z :: zs).reverse)
          (by rw [hcur]; simp)
          (by simp)
        rw [hbval, List.append_assoc, List.singleton_append]
        exact hinv

/-- Segments of a Python split never contain the separator. -/
theorem pySplit_seg_no_sep (sep : List Char) (hsep : sep ≠ []) (s : List Char) :
    ∀ seg ∈ pySplitGo sep [] s, ¬ (sep <:+: seg) := by
  refine pySplitGo_seg_no_sep sep hsep [] s ?_
  intro a b hab hbne
  rw [List.reverse_nil] at hab
  exact absurd (List.append_eq_nil.mp hab.symm).2 hbne

/-- One scan step that does not match the separator. -/
theorem pySplitGo_cons_neg {sep : List Char} {d : Char} {s : List Char}
    (h : List.isPrefixOf sep (d :: s) = false) (cur : List Char) :
    pySplitGo sep cur (d :: s) = pySplitGo sep (d :: cur) s := by
  conv_lhs => unfold pySplitGo
  rw [if_neg]
  rintro ⟨-, h'⟩
  rw [h] at h'
  exact Bool.noConfusion h'

/-- One scan step that matches the separator. -/
theorem pySplitGo_cons_pos {sep : List Char} {d : Char} {s : List Char}
    (hsep : sep ≠ []) (h : List.isPrefixOf sep (d :: s) = true) (cur : List Char) :
    pySplitGo sep cur (d :: s) = cur.reverse :: pySplitGo sep [] (s.drop (sep.length - 1)) := by
  conv_lhs => unfold pySplitGo
  rw [if_pos ⟨hsep, h⟩]

/-- For a single-character separator, a separator-free chunk `w` followed by
the separator is emitted as one segment and the scan resumes after it. -/
theorem pySplitGo_singleton_skip (c : Char) :
    ∀ w : List Char, c ∉ w → ∀ cur t : List Char,
      pySplitGo [c] cur (w ++ c :: t) = (cur.reverse ++ w) :: pySplitGo [c] [] t := by
  intro w
  induction w with
  | nil =>
    intro _ cur t
    rw [List.nil_append,
      pySplitGo_cons_pos (by simp) (by simp [List.isPrefixOf]) cur]
    simp
  | cons d w' ih =>
    intro hmem cur t
    have hdc : (c == d) = false := by
      simp only [beq_eq_false_iff_ne, ne_eq]
      exact fun hcd => hmem (hcd ▸ List.mem_cons_self d w')
    rw [List.cons_append, pySplitGo_cons_neg (by simp [List.isPrefixOf, hdc]) cur,
      ih (fun hc => hmem (List.mem_cons_of_mem d hc)) (d :: cur) t]
    simp

/-- The last segment of a single-character split is the part of the input
after the final separator occurrence. -/
theorem pySplitGo_singleton_getLast (c : Char) (y : List Char) (hy : c ∉ y) :
    ∀ z cur : List Char, (pySplitGo [c] cur (z ++ c :: y)).getLast? = some y := by
  intro z
  induction z with
  | nil =>
    intro cur
    rw [List.nil_append,
      pySplitGo_cons_pos (by simp) (by simp [List.isPrefixOf]) cur]
    simp only [List.length_cons, List.length_nil, Nat.sub_self, List.drop_zero]
    rw [pySplitGo_eq_single [c] [] y (fun hin => hy (singleton_infix_iff_mem.mp hin))]
    simp
  | cons d z' ih =>
    intro cur
    by_cases hdc : d = c
    · subst hdc
      rw [List.cons_append,
        pySplitGo_cons_pos (by simp) (by simp [List.isPrefixOf]) cur]
      simp only [List.length_cons, List.length_nil, Nat.sub_self, List.drop_zero]
      cases htl : pySplitGo [d] [] (z' ++ d :: y) with
      | nil => exact absurd htl (pySplitGo_ne_nil [d] [] (z' ++ d :: y))
      | cons p ps =>
        rw [List.getLast?_cons_cons, ← htl]
        exact ih []
    · have hcd : (c == d) = false := by
        simp only [beq_eq_false_iff_ne, ne_eq]
        exact fun hc => hdc hc.symm
      rw [List.cons_append, pySplitGo_cons_neg (by simp [List.isPrefixOf, hcd]) cur]
      exact ih (d :: cur)

theorem intercalate_cons_ne_nil (sep x : List Char) {xs : List (List Char)}
    (h : xs ≠ []) :
    List.intercalate sep (x :: xs) = x ++ sep ++ List.intercalate sep xs := by
  cases xs with
  | nil => exact absurd rfl h
  | cons y ys => simp [List.intercalate, List.append_assoc]

/-- Re-joining Python's split on the separator returns the original string:
the split is a partition of the input. -/
theorem intercalate_pySplitGo (sep : List Char) (hsep : sep ≠ []) :
    ∀ cur s : List Char,
      List.intercalate sep (pySplitGo sep cur s) = cur.reverse ++ s := by
  intro cur s
  induction cur, s using pySplitGo.induct sep with
  | case1 cur =>
    unfold pySplitGo
    simp [List.intercalate]
  | case2 cur c rest h ih =>
    unfold pySplitGo
    rw [if_pos h]
    obtain ⟨t, ht⟩ := isPrefixOf_true_iff.mp h.2
    have hdrop : rest.drop (sep.length - 1) = t := by
      have h1 : sep.length - 1 + 1 = sep.length := by
        cases sep with
        | nil => exact absurd rfl hsep
        | cons a as => simp
      have h2 : (c :: rest).drop sep.length = t := by
        rw [← ht, List.drop_left]
      rw [← h1, List.drop_succ_cons] at h2
      exact h2
    rw [intercalate_cons_ne_nil sep _ (pySplitGo_ne_nil sep [] _), ih, hdrop]
    rw [List.reverse_nil, List.nil_append, List.append_assoc, ht]
  | case3 cur c rest h ih =>
    unfold pySplitGo
    rw [if_neg h, ih]
    simp

/-- Scanning `"PIA - " ++ b` with separator `" - "` yields exactly the two
segments `"PIA"` and `b`, provided `b` contains no separator occurrence. -/
theorem pySplitGo_pia_append (b : List Char) (hb : ¬ ([' ', '-', ' '] <:+: b)) :
    pySplitGo [' ', '-', ' '] [] (['P', 'I', 'A', ' ', '-', ' '] ++ b) =
      [['P', 'I', 'A'], b] := by
  rw [show ['P', 'I', 'A', ' ', '-', ' '] ++ b = 'P' :: 'I' :: 'A' :: ' ' :: '-' :: ' ' :: b
    from rfl]
  rw [pySplitGo_cons_neg (by simp [List.isPrefixOf]) _,
    pySplitGo_cons_neg (by simp [List.isPrefixOf]) _,
    pySplitGo_cons_neg (by simp [List.isPrefixOf]) _,
    pySplitGo_cons_pos (by simp) (by simp [List.isPrefixOf]) _]
  rw [show ([' ', '-', ' '].length - 1 : Nat) = 2 from rfl,
    List.drop_succ_cons, List.drop_succ_cons, List.drop_zero,
    pySplitGo_eq_single _ [] b hb]
  rfl

/-! ### String-level helpers -/

theorem toList_append (s t : String) : (s ++ t).toList = s.toList ++ t.toList :=
  rfl

theorem string_ext {s t : String} (h : s.toList = t.toList) : s = t := by
  cases s
  cases t
  exact congrArg String.mk h

theorem mk_toList (s : String) : String.mk s.toList = s := by
  cases s
  rfl

theorem intercalate_single (sep x : List Char) : List.intercalate sep [x] = x := by
  simp [List.intercalate]

/-- `intercalate` peels off the final segment. -/
theorem intercalate_append_singleton (sep : List Char) :
    ∀ init : List (List Char), init ≠ [] → ∀ last : List Char,
      List.intercalate sep (init ++ [last]) =
        List.intercalate sep init ++ sep ++ last := by
  intro init
  induction init with
  | nil => intro h; exact absurd rfl h
  | cons x ys ih =>
    intro _ last
    cases ys with
    | nil => simp [List.intercalate, List.append_assoc]
    | cons y ys' =>
      rw [List.cons_append,
        intercalate_cons_ne_nil sep x (by simp),
        intercalate_cons_ne_nil sep x (by simp),
        ih (by simp) last]
      simp [List.append_assoc]

/-- `lastSeg s` (Python `s.split(' - ')[-1]`) is either the whole string (no
separator present) or the suffix of `s` after its final `' - '` separator. -/
theorem lastSeg_eq_self_or_split (s : String) :
    lastSeg s = s ∨ ∃ pre : String, s = pre ++ " - " ++ lastSeg s := by
  set sep : List Char := [' ', '-', ' '] with hsepdef
  have hsep : sep ≠ [] := by simp [hsepdef]
  have hne := pySplitGo_ne_nil sep [] s.toList
  have hjoin := intercalate_pySplitGo sep hsep [] s.toList
  rw [List.reverse_nil, List.nil_append] at hjoin
  have hlastseg : lastSeg s =
      String.mk ((pySplitGo sep [] s.toList).getLast hne) := by
    rw [lastSeg, pySplit]
    rw [show " - ".toList = sep from rfl]
    rw [List.getLastD_eq_getLast?, List.getLast?_map,
      List.getLast?_eq_getLast _ hne]
    rfl
  rcases eq_or_ne (pySplitGo sep [] s.toList).dropLast [] with hinit | hinit
  · left
    have hsegs : pySplitGo sep [] s.toList =
        [(pySplitGo sep [] s.toList).getLast hne] := by
      conv_lhs => rw [← List.dropLast_append_getLast hne]
      rw [hinit, List.nil_append]
    rw [hsegs, intercalate_single] at hjoin
    rw [hlastseg, hjoin, mk_toList]
  · right
    refine ⟨String.mk (List.intercalate sep (pySplitGo sep [] s.toList).dropLast), ?_⟩
    apply string_ext
    rw [toList_append, toList_append]
    conv_lhs => rw [← hjoin]
    conv_lhs => rw [← List.dropLast_append_getLast hne]
    rw [intercalate_append_singleton sep _ hinit, hlastseg]
    rfl

/-- `beforeColon s` (Python `s.split(':')[0]`) contains no `':'` and is
either the whole string or the prefix of `s` before its first `':'`. -/
theorem beforeColon_spec (s : String) :
    strContains (beforeColon s) ":" = false ∧
      (beforeColon s = s ∨ ∃ suf : String, s = beforeColon s ++ ":" ++ suf) := by
  have hsep : ([':'] : List Char) ≠ [] := by simp
  have hne := pySplitGo_ne_nil [':'] [] s.toList
  have hjoin := intercalate_pySplitGo [':'] hsep [] s.toList
  rw [List.reverse_nil, List.nil_append] at hjoin
  cases hsegs : pySplitGo [':'] [] s.toList with
  | nil => exact absurd hsegs hne
  | cons x xs =>
    have hbc : beforeColon s = String.mk x := by
      rw [beforeColon, pySplit, show ":".toList = [':'] from rfl, hsegs]
      rfl
    have hxfree : ¬ ([':'] <:+: x) :=
      pySplit_seg_no_sep [':'] hsep s.toList x (hsegs ▸ List.mem_cons_self x xs)
    constructor
    · rw [hbc, strContains, decide_eq_false_iff_not]
      exact fun hin => hxfree (by simpa using hin)
    · rw [hsegs] at hjoin
      cases xs with
      | nil =>
        left
        rw [intercalate_single] at hjoin
        rw [hbc, hjoin, mk_toList]
      | cons y ys =>
        right
        refine ⟨String.mk (List.intercalate [':'] (y :: ys)), ?_⟩
        apply string_ext
        rw [toList_append, toList_append]
        conv_lhs => rw [← hjoin]
        rw [intercalate_cons_ne_nil [':'] x (by simp), hbc]
        rfl

/-! ### `get_ip_addresses` (`pia_toolkit.py` lines 81–90) -/

/-- One value of the `configs` dict parsed from the PIA server-list JSON.
`other` models a non-dict entry (`isinstance(self.configs[k], dict)` is
false); `record name ping` models a dict with optional `'name'` and
`'ping'` fields. -/
inductive ConfigEntry where
  | other : ConfigEntry
  | record (name : Option String) (ping : Option String) : ConfigEntry
deriving DecidableEq, Repr

/-- Python truthiness of the `.get('ping')` result: `None` and `''` are
falsy, every other string is truthy. -/
def pingTruthy : Option String → Bool
  | none => false
  | some s => !(s == "")

/-- The `KeyError` raised by `self.configs[k]['name']` when the record has a
truthy `'ping'` but no `'name'` field. -/
inductive GetIpError where
  | keyError : GetIpError
deriving DecidableEq, Repr

/-- Loop of `get_ip_addresses`: iterate over `configs` in insertion order,
keeping dict records with a truthy `'ping'` whose `'name'` is among `cons`;
`ips` is the `self.ip_addresses` dict and `q` the ping queue
(`self.q.put(ip)` appends).  Looking up `'name'` on a record lacking it
raises `KeyError`. -/
def getIpGo (cons : List String) :
    List (String × ConfigEntry) → List (String × String) → List String →
      Except GetIpError (List (String × String) × List String)
  | [], ips, q => .ok (ips, q)
  | (_, .other) :: rest, ips, q => getIpGo cons rest ips q
  | (_, .record name ping) :: rest, ips, q =>
    if pingTruthy ping then
      match name with
      | none => .error .keyError
      | some n =>
        if n ∈ cons then
          getIpGo cons rest (dictInsert ips (beforeColon (ping.getD "")) n)
            (q ++ [beforeColon (ping.getD "")])
        else
          getIpGo cons rest ips q
    else
      getIpGo cons rest ips q

/-- `Latencies.get_ip_addresses`: builds the `ip → name` mapping
`self.ip_addresses` and fills the ping queue. -/
def get_ip_addresses (configs : List (String × ConfigEntry)) (cons : List String) :
    Except GetIpError (List (String × String) × List String) :=
  getIpGo cons configs [] []

/-- `cons = [i.split(' - ')[-1] for i in get_pia_connections(region)]`
(`pia_toolkit.py` line 82). -/
def consOf (region : String) (sysCons : List String) : List String :=
  (get_pia_connections region sysCons).map lastSeg

/-! ### The probe run (`ping` / `threaded_pings`, lines 92–103)

A run is the queue contents paired with each probe's outcome: `some avg` if
`subprocess.check_output(['ping', '-c', '3', ip])` succeeded with parsed
rtt average `avg`; `none` if `ping` exited non-zero, in which case
`check_output` raises `CalledProcessError` and the worker thread dies
before reaching `self.q.task_done()`, so the queue's unfinished-task
counter is never decremented for it.  Every thread terminates either way;
whether `q.join()` ever returns is a separate question settled below. -/

abbrev ProbeRun := List (String × Option ℚ)

/-- Effect of one probe thread on the shared `self.latencies` dict: a
successful probe writes `(ip, avg)` (line 96), a failed one dies before the
write. -/
def latStep (d : List (String × ℚ)) (e : String × Option ℚ) : List (String × ℚ) :=
  match e.2 with
  | some v => dictInsert d e.1 v
  | none => d

/-- Writes to `self.latencies` performed by the probe threads.  Writes to
distinct keys commute, so queue order stands in for the nondeterministic
thread interleaving. -/
def latenciesOf (entries : ProbeRun) : List (String × ℚ) :=
  entries.foldl latStep []

/-- Number of worker threads started by `threaded_pings` (lines 100–102):
one per queue element. -/
def tasksIssued (entries : ProbeRun) : Nat := entries.length

/-- Number of `task_done()` calls: one per ping that did not raise. -/
def taskDoneCount (entries : ProbeRun) : Nat :=
  (entries.filter (fun e => e.2.isSome)).length

/-- The queue's unfinished-task counter once every thread has terminated. -/
def unfinishedCount (entries : ProbeRun) : Nat :=
  tasksIssued entries - taskDoneCount entries

/-- `self.q.join()` unblocks precisely when the unfinished counter is 0. -/
def joinReturns (entries : ProbeRun) : Bool :=
  unfinishedCount entries == 0

/-- `threaded_pings` as observed by its caller: `some latencies` if
`q.join()` unblocks after all threads have terminated, `none` if it blocks
forever. -/
def probeAll (entries : ProbeRun) : Option (List (String × ℚ)) :=
  if joinReturns entries then some (latenciesOf entries) else none

/-- Number of writes to `self.latencies[ip]` in a run. -/
def writeEvents (entries : ProbeRun) (ip : String) : Nat :=
  (entries.filter (fun e => e.1 == ip && e.2.isSome)).length

/-! ### One probe task (`Latencies.ping`, lines 92–97) -/

/-- The command run by one probe (line 94). -/
def pingCmd (ip : String) : List String :=
  ["ping", "-c", "3", ip]

/-- The value of the `-c` (echo-request count) option of a command line. -/
def countArg : List String → Option String
  | [] => none
  | [_] => none
  | a :: b :: rest => if a == "-c" then some b else countArg (b :: rest)

/-- Numeric value of a decimal digit string. -/
def natOfDigits (l : List Char) : Nat :=
  l.foldl (fun n c => n * 10 + (c.toNat - 48)) 0

/-- Modelled from the spec: the external echo prober (`ping(8)`) sends as
many echo requests as its `-c` argument asks for. -/
def echoRequests (cmd : List String) : Nat :=
  match countArg cmd with
  | some s => natOfDigits s.toList
  | none => 0

/-- Modelled from the spec: the echo prober's output; on success `ping`
ends with the summary line `rtt min/avg/max/mdev = mn/avg/mx/mdev ms`,
whose `avg` field is the arithmetic mean round-trip time of the successful
replies. -/
def pingOutput (preamble mn avg mx mdev : String) : String :=
  preamble ++ "rtt min/avg/max/mdev = " ++ mn ++ "/" ++ avg ++ "/" ++ mx ++
    "/" ++ mdev ++ " ms\n"

/-- `result.split('=')[-1].split('/')[1]` (line 95). -/
def parseAvg (result : String) : String :=
  (pySplit ((pySplit result "=").getLastD "") "/").getD 1 ""

/-- Arithmetic mean of the rtt samples — what `ping` prints as `avg`. -/
def samplesMean (samples : List ℚ) : ℚ :=
  samples.sum / samples.length

/-- One probe task, seen at the level of dict writes: on success it writes
the single entry `(ip, mean of samples)`; on `CalledProcessError` it writes
nothing. -/
def pingTask (ip : String) (outcome : Option (List ℚ)) : Option (String × ℚ) :=
  outcome.map (fun samples => (ip, samplesMean samples))

/-! ### `get_fastest` (lines 105–107) -/

/-- Failure modes of `get_fastest`: `min` over an empty dict raises
`ValueError` — the condition the spec names `NoReachableServer`; an ip
missing from `ip_addresses` would raise `KeyError` (unreachable in the real
flow as latency keys come from the queue). -/
inductive FastestError where
  | noReachableServer : FastestError
  | keyError : FastestError
deriving DecidableEq, Repr

/-- Python's `min(latencies, key=latencies.get)`: the first key in dict
(= insertion) order holding the minimum value. -/
def argminFirst : List (String × ℚ) → Option (String × ℚ)
  | [] => none
  | p :: rest =>
    match argminFirst rest with
    | none => some p
    | some q => if q.2 < p.2 then some q else some p

/-- `Latencies.get_fastest`: `'PIA - ' + self.ip_addresses[fastest]`. -/
def get_fastest (lats : List (String × ℚ)) (ips : List (String × String)) :
    Except FastestError String :=
  match argminFirst lats with
  | none => .error .noReachableServer
  | some p =>
    match pyDictGet ips p.1 with
    | none => .error .keyError
    | some n => .ok ("PIA - " ++ n)

/-! ### `Latencies.__str__` (lines 112–118) -/

/-- Format spec `{:<w}`: left-justify, padding with spaces on the right. -/
def padRight (s : String) (w : Nat) : String :=
  s ++ String.mk (List.replicate (w - s.length) ' ')

/-- Format spec `{:>w}`: right-justify, padding with spaces on the left. -/
def padLeft (s : String) (w : Nat) : String :=
  String.mk (List.replicate (w - s.length) ' ') ++ s

/-- `{:.2f}`-style rendering of a rational, rounding to two decimals.
(Python's float formatting rounds ties to even; tie behaviour is immaterial
to the claims proved here.) -/
def fmtFixed2 (q : ℚ) : String :=
  let c : ℤ := round (q * 100)
  toString (c / 100) ++ "." ++
    (if (c % 100).natAbs < 10 then "0" else "") ++ toString (c % 100).natAbs

/-- `sorted(self.latencies, key=self.latencies.get)` (line 115): a stable
sort of the dict entries by latency value. -/
def sortedByLatency (lats : List (String × ℚ)) : List (String × ℚ) :=
  lats.mergeSort (fun p q => decide (p.2 ≤ q.2))

/-- One data row (lines 116–117):
`'| {:<18} | {:<15} | {:>9.2f} |'.format(name, ip, latency)`. -/
def tableRow (name ip : String) (v : ℚ) : String :=
  "| " ++ padRight name 18 ++ " | " ++ padRight ip 15 ++ " | " ++
    padLeft (fmtFixed2 v) 9 ++ " |"

/-- The data rows of the table, in print order. -/
def renderRows (lats : List (String × ℚ)) (ips : List (String × String)) :
    List String :=
  (sortedByLatency lats).map
    (fun p => tableRow ((pyDictGet ips p.1).getD "") p.1 p.2)

/-- The table header (lines 113–114). -/
def renderHeader : String :=
  " " ++ padRight "name" 20 ++ " " ++ padRight "ip" 17 ++ " " ++
    padLeft "ping (ms)" 11 ++ " \n" ++ String.mk (List.replicate 52 '-') ++ "\n"

/-- `Latencies.__str__`: header plus newline-terminated data rows. -/
def render (lats : List (String × ℚ)) (ips : List (String × String)) : String :=
  renderHeader ++ String.join ((renderRows lats ips).map (fun r => r ++ "\n"))

/-! ### Support lemmas on the probe-run model -/

theorem strContains_iff {hay needle : String} :
    strContains hay needle = true ↔ needle.toList <:+: hay.toList := by
  simp [strContains]

theorem strContains_trans {hay n₁ n₂ : String} (h : strContains hay n₁ = true)
    (hsub : n₂.toList <:+: n₁.toList) : strContains hay n₂ = true :=
  strContains_iff.mpr (hsub.trans (strContains_iff.mp h))

theorem strContains_middle (a s b : String) : strContains (a ++ s ++ b) s = true := by
  rw [strContains_iff, toList_append, toList_append]
  exact ⟨a.toList, b.toList, rfl⟩

/-- `q.join()` unblocks iff every queued probe called `task_done()`,
i.e. iff every probe succeeded. -/
theorem joinReturns_iff_all (entries : ProbeRun) :
    joinReturns entries = true ↔ ∀ e ∈ entries, e.2.isSome = true := by
  rw [joinReturns, unfinishedCount, tasksIssued, taskDoneCount, beq_iff_eq,
    Nat.sub_eq_zero_iff_le]
  constructor
  · intro hle
    have heq : (entries.filter (fun e => e.2.isSome)).length = entries.length :=
      Nat.le_antisymm (List.length_filter_le _ _) hle
    exact List.filter_length_eq_length.mp heq
  · intro hall
    exact Nat.le_of_eq (List.filter_length_eq_length.mpr hall).symm

/-- Keys of a Python dict after one insert. -/
theorem dictInsert_keys {α : Type} (d : List (String × α)) (k k' : String) (v : α) :
    k' ∈ (dictInsert d k v).map Prod.fst ↔ k' = k ∨ k' ∈ d.map Prod.fst := by
  rw [dictInsert]
  by_cases h : d.any (fun p => p.1 == k)
  · rw [if_pos h]
    have hkeys : (d.map (fun p => if p.1 == k then (k, v) else p)).map Prod.fst =
        d.map Prod.fst := by
      rw [List.map_map]
      apply List.map_congr_left
      intro p _
      by_cases hpk : p.1 == k
      · simp only [Function.comp, hpk, if_pos]
        exact (eq_of_beq hpk).symm
      · simp [Function.comp, hpk]
    rw [hkeys]
    have hkmem : k ∈ d.map Prod.fst := by
      obtain ⟨p, hp, hpk⟩ := List.any_eq_true.mp h
      exact List.mem_map.mpr ⟨p, hp, eq_of_beq hpk⟩
    constructor
    · exact Or.inr
    · rintro (rfl | hm)
      · exact hkmem
      · exact hm
  · rw [if_neg h, List.map_append]
    simp [or_comm]

/-- Key membership in the latencies dict built by a run. -/
theorem latenciesOf_keys_aux (entries : ProbeRun) :
    ∀ (acc : List (String × ℚ)) (ip : String),
      ip ∈ (entries.foldl latStep acc).map Prod.fst ↔
        ip ∈ acc.map Prod.fst ∨ ∃ v : ℚ, (ip, some v) ∈ entries := by
  induction entries with
  | nil => simp
  | cons e rest ih =>
    intro acc ip
    obtain ⟨ip', o⟩ := e
    rw [List.foldl_cons]
    cases o with
    | none =>
      rw [show latStep acc (ip', none) = acc from rfl, ih]
      simp
    | some v' =>
      rw [show latStep acc (ip', some v') = dictInsert acc ip' v' from rfl, ih,
        dictInsert_keys]
      constructor
      · rintro ((rfl | hacc) | ⟨v, hv⟩)
        · exact Or.inr ⟨v', List.mem_cons_self _ _⟩
        · exact Or.inl hacc
        · exact Or.inr ⟨v, List.mem_cons_of_mem _ hv⟩
      · rintro (hacc | ⟨v, hv⟩)
        · exact Or.inl (Or.inr hacc)
        · rcases List.mem_cons.mp hv with heq | hrest
          · obtain ⟨rfl, -⟩ := Prod.mk.injEq .. ▸ heq
            exact Or.inl (Or.inl rfl)
          · exact Or.inr ⟨v, hrest⟩

/-- No write events for a target that is not in the queue. -/
theorem writeEvents_eq_zero_of_not_mem (entries : ProbeRun) (ip : String)
    (h : ip ∉ entries.map Prod.fst) : writeEvents entries ip = 0 := by
  rw [writeEvents, List.length_eq_zero, List.filter_eq_nil_iff]
  intro e he
  intro hcontra
  rcases Bool.and_eq_true .. ▸ hcontra with ⟨heq, -⟩
  exact h (List.mem_map.mpr ⟨e, he, eq_of_beq heq⟩)

/-- At most one write per target when the queue has no duplicates; exactly
one iff that target's probe succeeded. -/
theorem writeEvents_of_nodup (entries : ProbeRun)
    (hnodup : (entries.map Prod.fst).Nodup) (ip : String) :
    writeEvents entries ip ≤ 1 ∧
      (writeEvents entries ip = 1 ↔ ∃ v : ℚ, (ip, some v) ∈ entries) := by
  induction entries with
  | nil => simp [writeEvents]
  | cons e rest ih =>
    obtain ⟨ip', o⟩ := e
    rw [List.map_cons, List.nodup_cons] at hnodup
    obtain ⟨hnotin, hnd⟩ := hnodup
    obtain ⟨ihle, ihiff⟩ := ih hnd
    by_cases hpred : (ip' == ip && o.isSome) = true
    · rcases Bool.and_eq_true .. ▸ hpred with ⟨hip, hsome⟩
      have hip' : ip' = ip := eq_of_beq hip
      subst hip'
      obtain ⟨v, hv⟩ := Option.isSome_iff_exists.mp hsome
      subst hv
      have hzero : writeEvents rest ip' = 0 :=
        writeEvents_eq_zero_of_not_mem rest ip' hnotin
      have hcount : writeEvents ((ip', some v) :: rest) ip' = 1 := by
        rw [writeEvents, List.filter_cons, if_pos hpred, List.length_cons]
        rw [writeEvents] at hzero
        rw [hzero]
      refine ⟨Nat.le_of_eq hcount, ?_⟩
      rw [hcount]
      exact ⟨fun _ => ⟨v, List.mem_cons_self _ _⟩, fun _ => rfl⟩
    · have hcount : writeEvents ((ip', o) :: rest) ip =
          writeEvents rest ip := by
        rw [writeEvents, List.filter_cons, if_neg hpred, writeEvents]
      rw [hcount]
      refine ⟨ihle, ihiff.trans ?_⟩
      constructor
      · rintro ⟨v, hv⟩
        exact ⟨v, List.mem_cons_of_mem _ hv⟩
      · rintro ⟨v, hv⟩
        rcases List.mem_cons.mp hv with heq | hrest
        · obtain ⟨h1, h2⟩ := Prod.mk.injEq .. ▸ heq
          exfalso
          apply hpred
          rw [Bool.and_eq_true]
          refine ⟨by simp [h1], ?_⟩
          rw [← h2]
          rfl
        · exact ⟨v, hrest⟩

/-- Python's `min` with a key function: the result is an entry of the list
attaining the minimum value, and every entry strictly before it in dict
(= insertion) order has a strictly larger value — on ties the
first-inserted key wins. -/
theorem argminFirst_spec (l : List (String × ℚ)) (hl : l ≠ []) :
    ∃ i : Fin l.length,
      argminFirst l = some (l.get i) ∧
      (∀ p ∈ l, (l.get i).2 ≤ p.2) ∧
      (∀ j : Fin l.length, j < i → (l.get i).2 < (l.get j).2) := by
  induction l with
  | nil => exact absurd rfl hl
  | cons p rest ih =>
    cases hrest : rest with
    | nil =>
      refine ⟨⟨0, by simp⟩, ?_, ?_, ?_⟩
      · rfl
      · intro q hq
        rcases List.mem_cons.mp hq with rfl | hq'
        · exact le_refl _
        · exact absurd hq' (List.not_mem_nil q)
      · intro j hj
        exact absurd hj (by simp [Fin.lt_def])
    | cons r rest' =>
      subst hrest
      obtain ⟨i', h1, h2, h3⟩ := ih (by simp)
      have harg : argminFirst (p :: r :: rest') =
          if ((r :: rest').get i').2 < p.2 then some ((r :: rest').get i')
          else some p := by
        rw [argminFirst, h1]
      by_cases hlt : ((r :: rest').get i').2 < p.2
      · refine ⟨i'.succ, ?_, ?_, ?_⟩
        · rw [harg, if_pos hlt]
          rfl
        · intro q hq
          rcases List.mem_cons.mp hq with rfl | hq'
          · exact le_of_lt (by simpa using hlt)
          · simpa using h2 q hq'
        · intro j hj
          rcases Fin.eq_zero_or_eq_succ j with rfl | ⟨j', rfl⟩
          · simpa using hlt
          · have hj' : j' < i' := by
              simpa [Fin.succ_lt_succ_iff] using hj
            simpa using h3 j' hj'
      · refine ⟨⟨0, by simp⟩, ?_, ?_, ?_⟩
        · rw [harg, if_neg hlt]
          rfl
        · intro q hq
          rcases List.mem_cons.mp hq with rfl | hq'
          · exact le_refl _
          · have hple : p.2 ≤ ((r :: rest').get i').2 := le_of_not_lt hlt
            exact le_trans (by simpa using hple) (h2 q hq')
        · intro j hj
          exact absurd hj (by simp [Fin.lt_def])

/-- `get_ip_addresses` raises iff some record carries a truthy `'ping'`
while lacking `'name'`; all other malformed records are skipped quietly. -/
theorem getIpGo_error_iff (cons : List String) :
    ∀ (configs : List (String × ConfigEntry)) (ips : List (String × String))
      (q : List String),
      (∃ e, getIpGo cons configs ips q = .error e) ↔
        ∃ (k : String) (ping : Option String),
          (k, ConfigEntry.record none ping) ∈ configs ∧ pingTruthy ping = true := by
  intro configs
  induction configs with
  | nil =>
    intro ips q
    simp [getIpGo]
  | cons entry rest ih =>
    obtain ⟨k, ce⟩ := entry
    intro ips q
    cases ce with
    | other =>
      rw [show getIpGo cons ((k, ConfigEntry.other) :: rest) ips q =
        getIpGo cons rest ips q from rfl, ih]
      constructor
      · rintro ⟨k', ping', hmem, hpt⟩
        exact ⟨k', ping', List.mem_cons_of_mem _ hmem, hpt⟩
      · rintro ⟨k', ping', hmem, hpt⟩
        rcases List.mem_cons.mp hmem with heq | hmem'
        · exact absurd (congrArg Prod.snd heq) (by simp)
        · exact ⟨k', ping', hmem', hpt⟩
    | record name ping =>
      by_cases hpt : pingTruthy ping = true
      · cases name with
        | none =>
          constructor
          · intro _
            exact ⟨k, ping, List.mem_cons_self _ _, hpt⟩
          · intro _
            refine ⟨GetIpError.keyError, ?_⟩
            rw [show getIpGo cons ((k, ConfigEntry.record none ping) :: rest) ips q =
              if pingTruthy ping then .error .keyError
              else getIpGo cons rest ips q from rfl, if_pos hpt]
        | some n =>
          have hstep : getIpGo cons ((k, ConfigEntry.record (some n) ping) :: rest) ips q =
              if n ∈ cons then
                getIpGo cons rest (dictInsert ips (beforeColon (ping.getD "")) n)
                  (q ++ [beforeColon (ping.getD "")])
              else getIpGo cons rest ips q := by
            rw [show getIpGo cons ((k, ConfigEntry.record (some n) ping) :: rest) ips q =
              if pingTruthy ping then
                (if n ∈ cons then
                  getIpGo cons rest (dictInsert ips (beforeColon (ping.getD "")) n)
                    (q ++ [beforeColon (ping.getD "")])
                else getIpGo cons rest ips q)
              else getIpGo cons rest ips q from rfl, if_pos hpt]
          have hrec : ∀ (k' : String), (k', ConfigEntry.record none ping) =
              (k, ConfigEntry.record (some n) ping) → False := by
            intro k' heq
            exact absurd (congrArg Prod.snd heq) (by simp)
          by_cases hn : n ∈ cons
          · rw [hstep, if_pos hn, ih]
            constructor
            · rintro ⟨k', ping', hmem, hpt'⟩
              exact ⟨k', ping', List.mem_cons_of_mem _ hmem, hpt'⟩
            · rintro ⟨k', ping', hmem, hpt'⟩
              rcases List.mem_cons.mp hmem with heq | hmem'
              · exact absurd (congrArg Prod.snd heq) (by simp)
              · exact ⟨k', ping', hmem', hpt'⟩
          · rw [hstep, if_neg hn, ih]
            constructor
            · rintro ⟨k', ping', hmem, hpt'⟩
              exact ⟨k', ping', List.mem_cons_of_mem _ hmem, hpt'⟩
            · rintro ⟨k', ping', hmem, hpt'⟩
              rcases List.mem_cons.mp hmem with heq | hmem'
              · exact absurd (congrArg Prod.snd heq) (by simp)
              · exact ⟨k', ping', hmem', hpt'⟩
      · have hptf : pingTruthy ping = false := by
          cases hv : pingTruthy ping with
          | false => rfl
          | true => exact absurd hv hpt
        have hstep : getIpGo cons ((k, ConfigEntry.record name ping) :: rest) ips q =
            getIpGo cons rest ips q := by
          cases name with
          | none =>
            rw [show getIpGo cons ((k, ConfigEntry.record none ping) :: rest) ips q =
              if pingTruthy ping then .error .keyError
              else getIpGo cons rest ips q from rfl, if_neg (by rw [hptf]; exact Bool.noConfusion)]
          | some n =>
            rw [show getIpGo cons ((k, ConfigEntry.record (some n) ping) :: rest) ips q =
              if pingTruthy ping then
                (if n ∈ cons then
                  getIpGo cons rest (dictInsert ips (beforeColon (ping.getD "")) n)
                    (q ++ [beforeColon (ping.getD "")])
                else getIpGo cons rest ips q)
              else getIpGo cons rest ips q from rfl, if_neg (by rw [hptf]; exact Bool.noConfusion)]
        rw [hstep, ih]
        constructor
        · rintro ⟨k', ping', hmem, hpt'⟩
          exact ⟨k', ping', List.mem_cons_of_mem _ hmem, hpt'⟩
        · rintro ⟨k', ping', hmem, hpt'⟩
          rcases List.mem_cons.mp hmem with heq | hmem'
          · obtain ⟨-, hsnd⟩ := Prod.mk.injEq .. ▸ heq
            obtain ⟨hname, hping⟩ := ConfigEntry.record.injEq .. ▸ hsnd
            rw [hping, hptf] at hpt'
            exact Bool.noConfusion hpt'
          · exact ⟨k', ping', hmem', hpt'⟩

/-- Every ip that reaches the ping queue comes from a dict record carrying
both a matching `'name'` and a non-empty `'ping'`. -/
theorem getIpGo_queue_sound (cons : List String) :
    ∀ (configs : List (String × ConfigEntry)) (ips : List (String × String))
      (q : List String) (ipsOut : List (String × String)) (qOut : List String),
      getIpGo cons configs ips q = .ok (ipsOut, qOut) →
      ∀ ip ∈ qOut, ip ∈ q ∨
        ∃ k nm p : String,
          (k, ConfigEntry.record (some nm) (some p)) ∈ configs ∧ p ≠ "" ∧
            nm ∈ cons ∧ ip = beforeColon p := by
  intro configs
  induction configs with
  | nil =>
    intro ips q ipsOut qOut hok ip hip
    rw [show getIpGo cons [] ips q = .ok (ips, q) from rfl] at hok
    obtain ⟨-, rfl⟩ := Prod.mk.injEq .. ▸ Except.ok.injEq .. ▸ hok
    exact Or.inl hip
  | cons entry rest ih =>
    obtain ⟨k, ce⟩ := entry
    intro ips q ipsOut qOut hok ip hip
    have weaken : (ip ∈ q ∨ ∃ k' nm p : String,
          (k', ConfigEntry.record (some nm) (some p)) ∈ rest ∧ p ≠ "" ∧
            nm ∈ cons ∧ ip = beforeColon p) →
        ip ∈ q ∨ ∃ k' nm p : String,
          (k', ConfigEntry.record (some nm) (some p)) ∈ (k, ce) :: rest ∧ p ≠ "" ∧
            nm ∈ cons ∧ ip = beforeColon p := by
      rintro (hq | ⟨k', nm, p, hmem, hp, hnm, hbc⟩)
      · exact Or.inl hq
      · exact Or.inr ⟨k', nm, p, List.mem_cons_of_mem _ hmem, hp, hnm, hbc⟩
    cases ce with
    | other =>
      exact weaken (ih ips q ipsOut qOut hok ip hip)
    | record name ping =>
      by_cases hpt : pingTruthy ping = true
      · obtain ⟨p, rfl⟩ : ∃ p, ping = some p := by
          cases ping with
          | none => exact absurd hpt (by simp [pingTruthy])
          | some p => exact ⟨p, rfl⟩
        have hpne : p ≠ "" := by
          intro hp
          rw [hp] at hpt
          exact absurd hpt (by simp [pingTruthy])
        cases name with
        | none =>
          rw [show getIpGo cons ((k, ConfigEntry.record none (some p)) :: rest) ips q =
            if pingTruthy (some p) then .error .keyError
            else getIpGo cons rest ips q from rfl, if_pos hpt] at hok
          exact Except.noConfusion hok
        | some n =>
          rw [show getIpGo cons ((k, ConfigEntry.record (some n) (some p)) :: rest) ips q =
            if pingTruthy (some p) then
              (if n ∈ cons then
                getIpGo cons rest (dictInsert ips (beforeColon ((some p).getD "")) n)
                  (q ++ [beforeColon ((some p).getD "")])
              else getIpGo cons rest ips q)
            else getIpGo cons rest ips q from rfl, if_pos hpt] at hok
          by_cases hn : n ∈ cons
          · rw [if_pos hn] at hok
            rcases ih _ _ ipsOut qOut hok ip hip with hq | hfound
            · rcases List.mem_append.mp hq with hq' | hbc
              · exact Or.inl hq'
              · rw [List.mem_singleton] at hbc
                exact Or.inr ⟨k, n, p, List.mem_cons_self _ _, hpne, hn, hbc⟩
            · exact weaken (Or.inr hfound)
          · rw [if_neg hn] at hok
            exact weaken (ih ips q ipsOut qOut hok ip hip)
      · have hptf : pingTruthy ping = false := by
          cases hv : pingTruthy ping with
          | false => rfl
          | true => exact absurd hv hpt
        have hstep : getIpGo cons ((k, ConfigEntry.record name ping) :: rest) ips q =
            getIpGo cons rest ips q := by
          cases name with
          | none =>
            rw [show getIpGo cons ((k, ConfigEntry.record none ping) :: rest) ips q =
              if pingTruthy ping then .error .keyError
              else getIpGo cons rest ips q from rfl,
              if_neg (by rw [hptf]; exact Bool.noConfusion)]
          | some n =>
            rw [show getIpGo cons ((k, ConfigEntry.record (some n) ping) :: rest) ips q =
              if pingTruthy ping then
                (if n ∈ cons then
                  getIpGo cons rest (dictInsert ips (beforeColon (ping.getD "")) n)
                    (q ++ [beforeColon (ping.getD "")])
                else getIpGo cons rest ips q)
              else getIpGo cons rest ips q from rfl,
              if_neg (by rw [hptf]; exact Bool.noConfusion)]
        rw [hstep] at hok
        exact weaken (ih ips q ipsOut qOut hok ip hip)

theorem lastSeg_eq_mk_getLast (s : String)
    (hne : pySplitGo [' ', '-', ' '] [] s.toList ≠ []) :
    lastSeg s = String.mk ((pySplitGo [' ', '-', ' '] [] s.toList).getLast hne) := by
  rw [lastSeg, pySplit, show " - ".toList = [' ', '-', ' '] from rfl]
  rw [List.getLastD_eq_getLast?, List.getLast?_map, List.getLast?_eq_getLast _ hne]
  rfl

/-- If prepending `'PIA - '` to `s.split(' - ')[-1]` reconstructs `s`, then
the split of `s` has exactly two segments (one separator). -/
theorem reconstruct_implies_two_segments (con : String)
    (h : "PIA - " ++ lastSeg con = con) :
    (pySplit con " - ").length = 2 := by
  have hne := pySplitGo_ne_nil [' ', '-', ' '] [] con.toList
  have hbfree : ¬ ([' ', '-', ' '] <:+:
      (pySplitGo [' ', '-', ' '] [] con.toList).getLast hne) :=
    pySplit_seg_no_sep [' ', '-', ' '] (by simp) con.toList _ (List.getLast_mem hne)
  have hcon : con.toList = ['P', 'I', 'A', ' ', '-', ' '] ++
      (pySplitGo [' ', '-', ' '] [] con.toList).getLast hne := by
    conv_lhs => rw [← h]
    rw [toList_append, lastSeg_eq_mk_getLast con hne]
    rfl
  rw [pySplit, show " - ".toList = [' ', '-', ' '] from rfl, List.length_map]
  conv_lhs => rw [hcon]
  rw [pySplitGo_pia_append _ hbfree]
  rfl

/-! ## Claim theorems -/

/-- **C1**: on a non-empty `latencies` dict, `get_fastest` selects the entry
with the minimum latency value; with a unique minimum the result is
determined by the data alone (`get_fastest` is a pure function of the
data), on ties the first-inserted entry wins, and the returned name is
`'PIA - ' + ip_addresses[argmin]`. -/
theorem C1_fastest_minimum_first_tiebreak (lats : List (String × ℚ))
    (ips : List (String × String)) (hne : lats ≠ []) :
    ∃ i : Fin lats.length,
      argminFirst lats = some (lats.get i) ∧
      (∀ p ∈ lats, (lats.get i).2 ≤ p.2) ∧
      (∀ j : Fin lats.length, j < i → (lats.get i).2 < (lats.get j).2) ∧
      ∀ n : String, pyDictGet ips (lats.get i).1 = some n →
        get_fastest lats ips = .ok ("PIA - " ++ n) := by
  obtain ⟨i, h1, h2, h3⟩ := argminFirst_spec lats hne
  refine ⟨i, h1, h2, h3, ?_⟩
  intro n hn
  rw [show get_fastest lats ips =
    (match argminFirst lats with
      | none => .error .noReachableServer
      | some p =>
        match pyDictGet ips p.1 with
        | none => .error .keyError
        | some n => .ok ("PIA - " ++ n)) from rfl, h1]
  show (match pyDictGet ips (lats.get i).1 with
    | none => Except.error FastestError.keyError
    | some n => Except.ok ("PIA - " ++ n)) = Except.ok ("PIA - " ++ n)
  rw [hn]

/-- Witness for C1: spec scenario A — probes at 40.0 ms and 20.0 ms; the
second target wins and its profile name is returned. -/
theorem C1_fastest_minimum_first_tiebreak_witness :
    ∃ i : Fin ([("1.2.3.4", (40 : ℚ)), ("5.6.7.8", (20 : ℚ))]).length,
      argminFirst [("1.2.3.4", (40 : ℚ)), ("5.6.7.8", (20 : ℚ))] =
        some (([("1.2.3.4", (40 : ℚ)), ("5.6.7.8", (20 : ℚ))]).get i) ∧
      (∀ p ∈ [("1.2.3.4", (40 : ℚ)), ("5.6.7.8", (20 : ℚ))],
        (([("1.2.3.4", (40 : ℚ)), ("5.6.7.8", (20 : ℚ))]).get i).2 ≤ p.2) ∧
      (∀ j : Fin ([("1.2.3.4", (40 : ℚ)), ("5.6.7.8", (20 : ℚ))]).length, j < i →
        (([("1.2.3.4", (40 : ℚ)), ("5.6.7.8", (20 : ℚ))]).get i).2 <
          (([("1.2.3.4", (40 : ℚ)), ("5.6.7.8", (20 : ℚ))]).get j).2) ∧
      ∀ n : String,
        pyDictGet [("1.2.3.4", "US East"), ("5.6.7.8", "US West")]
            (([("1.2.3.4", (40 : ℚ)), ("5.6.7.8", (20 : ℚ))]).get i).1 = some n →
          get_fastest [("1.2.3.4", (40 : ℚ)), ("5.6.7.8", (20 : ℚ))]
              [("1.2.3.4", "US East"), ("5.6.7.8", "US West")] =
            .ok ("PIA - " ++ n) :=
  C1_fastest_minimum_first_tiebreak
    [("1.2.3.4", (40 : ℚ)), ("5.6.7.8", (20 : ℚ))]
    [("1.2.3.4", "US East"), ("5.6.7.8", "US West")] (by decide)

/-- **C4**: on an empty latencies dict `get_fastest` fails — Python's `min`
raises on an empty sequence, the distinguished condition the spec reports
as `NoReachableServer` — rather than returning a name. -/
theorem C4_empty_latencies_error (ips : List (String × String)) :
    get_fastest [] ips = .error .noReachableServer :=
  rfl

/-- **C6**: `get_pia_connections` enforces each region filter's containment
rule: `'us'` never returns a name lacking the `'US'` marker; `'int'` never
returns a name containing `'US'` as a substring (and only names containing
`'PIA - '`); `'all'` keeps exactly the names containing the `'PIA - '`
marker; on the spec's scenario C only `'PIA - Germany'` survives `'int'`. -/
theorem C6_region_filter_containment :
    (∀ (dir : List String) (con : String), con ∈ get_pia_connections "us" dir →
      strContains con "US" = true) ∧
    (∀ (dir : List String) (con : String), con ∈ get_pia_connections "int" dir →
      strContains con "PIA - " = true ∧ strContains con "US" = false) ∧
    (∀ (dir : List String) (con : String),
      con ∈ get_pia_connections "all" dir ↔
        con ∈ dir ∧ strContains con "PIA - " = true) ∧
    get_pia_connections "int" ["PIA - US East", "PIA - Germany", "PIA - USA-South"] =
      ["PIA - Germany"] := by
  refine ⟨?_, ?_, ?_, by decide⟩
  · intro dir con hmem
    rw [show get_pia_connections "us" dir =
      dir.filter (fun i => strContains i "PIA - US") from rfl] at hmem
    exact strContains_trans (List.mem_filter.mp hmem).2 (by decide)
  · intro dir con hmem
    rw [show get_pia_connections "int" dir =
      dir.filter (fun i => strContains i "PIA - " && !(strContains i "US")) from rfl]
      at hmem
    rcases Bool.and_eq_true .. ▸ (List.mem_filter.mp hmem).2 with ⟨h1, h2⟩
    refine ⟨h1, ?_⟩
    cases hus : strContains con "US" with
    | false => rfl
    | true =>
      rw [hus] at h2
      exact Bool.noConfusion h2
  · intro dir con
    rw [show get_pia_connections "all" dir =
      dir.filter (fun i => strContains i "PIA - ") from rfl, List.mem_filter]

/-- Witness for C6: a concrete directory listing for each filter. -/
theorem C6_region_filter_containment_witness :
    strContains "PIA - US East" "US" = true ∧
      strContains "PIA - Germany" "PIA - " = true ∧
      strContains "PIA - Germany" "US" = false :=
  ⟨C6_region_filter_containment.1 ["PIA - US East"] "PIA - US East" (by decide),
    (C6_region_filter_containment.2.1 ["PIA - Germany"] "PIA - Germany" (by decide)).1,
    (C6_region_filter_containment.2.1 ["PIA - Germany"] "PIA - Germany" (by decide)).2⟩

/-- Counterexample to **C2** as stated: a run whose single probe has
terminated (with failure) — yet `probeAll` does not return: the failed
thread died in `check_output` before calling `task_done()`, so `q.join()`
blocks forever although every issued probe task has terminated. -/
theorem C2_counterexample :
    probeAll [("1.2.3.4", (none : Option ℚ))] = none :=
  rfl

/-- **C2** (amended): `probeAll` returns — with the aggregated latencies —
iff every issued probe **succeeded**, since only a successful `ping` call
reaches `task_done()`; a probe failure leaves `q.join()` blocked forever
even after all probe threads have terminated. -/
theorem C2_join_iff_all_succeed (entries : ProbeRun) :
    ((probeAll entries).isSome = true ↔ ∀ e ∈ entries, e.2.isSome = true) ∧
      ((∀ e ∈ entries, e.2.isSome = true) →
        probeAll entries = some (latenciesOf entries)) := by
  constructor
  · rw [← joinReturns_iff_all]
    cases hj : joinReturns entries with
    | false => simp [probeAll, hj]
    | true => simp [probeAll, hj]
  · intro hall
    rw [probeAll, if_pos ((joinReturns_iff_all entries).mpr hall)]

/-- Witness for C2 (amended): a run of two successful probes returns the
aggregated latencies. -/
theorem C2_join_iff_all_succeed_witness :
    probeAll [("1.1.1.1", some (5 : ℚ)), ("2.2.2.2", some (7 : ℚ))] =
      some (latenciesOf [("1.1.1.1", some (5 : ℚ)), ("2.2.2.2", some (7 : ℚ))]) :=
  (C2_join_iff_all_succeed [("1.1.1.1", some (5 : ℚ)), ("2.2.2.2", some (7 : ℚ))]).2
    (by decide)

/-- Counterexample to **C3** as stated: with a single failing probe,
`probeAll` produces no LatencyResult at all — the join blocks — so no
"result whose key set is the successful targets" is ever returned. -/
theorem C3_counterexample :
    probeAll [("5.6.7.8", (none : Option ℚ))] = none :=
  rfl

/-- **C3** (amended): the internal latencies mapping contains exactly the
targets whose probe succeeded (in particular a subset of the queued
targets); a failed probe leaves no entry and does not disturb the other
probes' entries; but `probeAll` hands this mapping to its caller only when
every probe succeeded — any failure blocks the join forever. -/
theorem C3_latencies_keys_successes (entries : ProbeRun) (ip : String)
    (es₁ es₂ : ProbeRun) :
    (ip ∈ (latenciesOf entries).map Prod.fst ↔ ∃ v : ℚ, (ip, some v) ∈ entries) ∧
      (ip ∈ (latenciesOf entries).map Prod.fst → ip ∈ entries.map Prod.fst) ∧
      latenciesOf (es₁ ++ (ip, (none : Option ℚ)) :: es₂) = latenciesOf (es₁ ++ es₂) ∧
      (∀ r, probeAll entries = some r → r = latenciesOf entries) := by
  have hkeys : ip ∈ (latenciesOf entries).map Prod.fst ↔
      ∃ v : ℚ, (ip, some v) ∈ entries := by
    have h := latenciesOf_keys_aux entries [] ip
    rw [latenciesOf]
    simpa using h
  refine ⟨hkeys, ?_, ?_, ?_⟩
  · intro hmem
    obtain ⟨v, hv⟩ := hkeys.mp hmem
    exact List.mem_map.mpr ⟨(ip, some v), hv, rfl⟩
  · rw [latenciesOf, latenciesOf, List.foldl_append, List.foldl_cons,
      show latStep (List.foldl latStep [] es₁) (ip, none) =
        List.foldl latStep [] es₁ from rfl, List.foldl_append]
  · intro r hr
    rw [probeAll] at hr
    by_cases hj : joinReturns entries = true
    · rw [if_pos hj] at hr
      exact (Option.some.injEq .. ▸ hr).symm
    · rw [if_neg hj] at hr
      exact Option.noConfusion hr

/-- Witness for C3 (amended): a successful singleton run, where the result
handed back by `probeAll` is the latencies mapping. -/
theorem C3_latencies_keys_successes_witness :
    [("9.9.9.9", (3 : ℚ))] = latenciesOf [("9.9.9.9", some (3 : ℚ))] :=
  (C3_latencies_keys_successes [("9.9.9.9", some (3 : ℚ))] "9.9.9.9" [] []).2.2.2
    [("9.9.9.9", (3 : ℚ))] (by decide)

unseal pySplitGo in
/-- Counterexample to **C9** as stated: two server-list records sharing the
probe address `1.2.3.4` put it on the queue twice — two probe tasks are
issued for one unique target, the latencies key is written twice, and the
first written value is overwritten (mutated after being set). -/
theorem C9_counterexample :
    get_ip_addresses
        [("k1", ConfigEntry.record (some "A") (some "1.2.3.4:500")),
          ("k2", ConfigEntry.record (some "B") (some "1.2.3.4:500"))]
        ["A", "B"] =
      .ok ([("1.2.3.4", "B")], ["1.2.3.4", "1.2.3.4"]) ∧
      tasksIssued [("1.2.3.4", some (10 : ℚ)), ("1.2.3.4", some (20 : ℚ))] = 2 ∧
      List.dedup ["1.2.3.4", "1.2.3.4"] = ["1.2.3.4"] ∧
      writeEvents [("1.2.3.4", some (10 : ℚ)), ("1.2.3.4", some (20 : ℚ))]
        "1.2.3.4" = 2 ∧
      latenciesOf [("1.2.3.4", some (10 : ℚ)), ("1.2.3.4", some (20 : ℚ))] =
        [("1.2.3.4", 20)] :=
  ⟨rfl, rfl, by decide, by decide, by decide⟩

/-- **C9** (amended): one probe task is issued per **queue entry**, i.e. per
retained server-list record, not per unique target; when the retained
records' probe addresses are pairwise distinct, the claim's conclusion does
hold — at most one write per key, exactly one iff that target's probe
succeeded, so no entry is overwritten after being set. -/
theorem C9_one_task_per_queue_entry (entries : ProbeRun)
    (hnodup : (entries.map Prod.fst).Nodup) (ip : String) :
    tasksIssued entries = entries.length ∧
      writeEvents entries ip ≤ 1 ∧
      (writeEvents entries ip = 1 ↔ ∃ v : ℚ, (ip, some v) ∈ entries) := by
  obtain ⟨h1, h2⟩ := writeEvents_of_nodup entries hnodup ip
  exact ⟨rfl, h1, h2⟩

/-- Witness for C9 (amended) on a duplicate-free queue. -/
theorem C9_one_task_per_queue_entry_witness :
    tasksIssued [("1.2.3.4", some (10 : ℚ)), ("5.6.7.8", (none : Option ℚ))] =
        ([("1.2.3.4", some (10 : ℚ)), ("5.6.7.8", (none : Option ℚ))]).length ∧
      writeEvents [("1.2.3.4", some (10 : ℚ)), ("5.6.7.8", (none : Option ℚ))]
          "1.2.3.4" ≤ 1 ∧
      (writeEvents [("1.2.3.4", some (10 : ℚ)), ("5.6.7.8", (none : Option ℚ))]
            "1.2.3.4" = 1 ↔
        ∃ v : ℚ, ("1.2.3.4", some v) ∈
          [("1.2.3.4", some (10 : ℚ)), ("5.6.7.8", (none : Option ℚ))]) :=
  C9_one_task_per_queue_entry
    [("1.2.3.4", some (10 : ℚ)), ("5.6.7.8", (none : Option ℚ))] (by decide) "1.2.3.4"

/-- Counterexample to **C5** as stated: a dict record carrying a probe
address but no display name is not silently dropped — the lookup
`configs[k]['name']` raises `KeyError` and aborts `get_ip_addresses`. -/
theorem C5_counterexample :
    get_ip_addresses [("k", ConfigEntry.record none (some "1.2.3.4:500"))] [] =
      .error .keyError :=
  rfl

/-- **C5** (amended): `get_ip_addresses` includes only records carrying both
a display name (matching a configured connection) and a non-empty probe
address; non-dictionary entries and records without a truthy `'ping'` are
silently dropped — it errors precisely when some dict record has a truthy
`'ping'` but no `'name'`, which raises `KeyError` instead of being
dropped. -/
theorem C5_record_validation (configs : List (String × ConfigEntry))
    (cons : List String) :
    ((∃ e, get_ip_addresses configs cons = .error e) ↔
      ∃ (k : String) (ping : Option String),
        (k, ConfigEntry.record none ping) ∈ configs ∧ pingTruthy ping = true) ∧
      ∀ (ips : List (String × String)) (q : List String),
        get_ip_addresses configs cons = .ok (ips, q) →
        ∀ ip ∈ q, ∃ k nm p : String,
          (k, ConfigEntry.record (some nm) (some p)) ∈ configs ∧ p ≠ "" ∧
            nm ∈ cons ∧ ip = beforeColon p := by
  constructor
  · exact getIpGo_error_iff cons configs [] []
  · intro ips q hok ip hip
    rcases getIpGo_queue_sound cons configs [] [] ips q hok ip hip with hfalse | hfound
    · exact absurd hfalse (List.not_mem_nil ip)
    · exact hfound

unseal pySplitGo in
/-- Witness for C5 (amended): a catalog with a non-dict entry, a record
lacking `'ping'`, an empty-`'ping'` record, and one valid record; only the
valid record reaches the queue and it has both fields. -/
theorem C5_record_validation_witness :
    ∃ k nm p : String,
      (k, ConfigEntry.record (some nm) (some p)) ∈
          [("k0", ConfigEntry.other),
            ("k1", ConfigEntry.record (some "A") none),
            ("k2", ConfigEntry.record (some "A") (some "")),
            ("k3", ConfigEntry.record (some "A") (some "7.7.7.7:500"))] ∧
        p ≠ "" ∧ nm ∈ ["A"] ∧ "7.7.7.7" = beforeColon p :=
  (C5_record_validation
      [("k0", ConfigEntry.other),
        ("k1", ConfigEntry.record (some "A") none),
        ("k2", ConfigEntry.record (some "A") (some "")),
        ("k3", ConfigEntry.record (some "A") (some "7.7.7.7:500"))]
      ["A"]).2
    [("7.7.7.7", "A")] ["7.7.7.7"] rfl "7.7.7.7" (by decide)

/-- `result.split('=')[-1].split('/')[1]` recovers the `avg` field from the
echo prober's summary line, for any preamble and any field values free of
the delimiter characters. -/
theorem parseAvg_pingOutput (preamble mn avg mx mdev : String)
    (hmn : '=' ∉ mn.toList) (havg : '=' ∉ avg.toList)
    (hmx : '=' ∉ mx.toList) (hmdev : '=' ∉ mdev.toList)
    (hmn' : '/' ∉ mn.toList) (havg' : '/' ∉ avg.toList) :
    parseAvg (pingOutput preamble mn avg mx mdev) = avg := by
  have hy : '=' ∉ (' ' :: (mn.toList ++ '/' :: (avg.toList ++ '/' ::
      (mx.toList ++ '/' :: (mdev.toList ++ " ms\n".toList))))) := by
    intro hmem
    simp only [List.mem_cons, List.mem_append] at hmem
    rcases hmem with h | h | h | h | h | h | h | h
    · exact absurd h (by decide)
    · exact hmn h
    · exact absurd h (by decide)
    · exact havg h
    · exact absurd h (by decide)
    · exact hmx h
    · exact absurd h (by decide)
    · rcases h with h | h
      · exact hmdev h
      · exact absurd h (by decide)
  have hfull : (pingOutput preamble mn avg mx mdev).toList =
      (preamble.toList ++ "rtt min/avg/max/mdev ".toList) ++
        '=' :: (' ' :: (mn.toList ++ '/' :: (avg.toList ++ '/' ::
          (mx.toList ++ '/' :: (mdev.toList ++ " ms\n".toList))))) := by
    simp only [pingOutput, toList_append]
    rw [show ("rtt min/avg/max/mdev = ").toList =
      "rtt min/avg/max/mdev ".toList ++ '=' :: [' '] from rfl,
      show ("/").toList = ['/'] from rfl]
    simp [List.append_assoc]
  have hstep1 : (pySplit (pingOutput preamble mn avg mx mdev) "=").getLastD "" =
      String.mk (' ' :: (mn.toList ++ '/' :: (avg.toList ++ '/' ::
        (mx.toList ++ '/' :: (mdev.toList ++ " ms\n".toList))))) := by
    rw [pySplit, show "=".toList = ['='] from rfl, hfull,
      List.getLastD_eq_getLast?, List.getLast?_map,
      pySplitGo_singleton_getLast '=' _ hy _ []]
    rfl
  have hw1 : '/' ∉ (' ' :: mn.toList) := by
    intro h
    rcases List.mem_cons.mp h with h | h
    · exact absurd h (by decide)
    · exact hmn' h
  rw [parseAvg, hstep1]
  rw [pySplit, show "/".toList = ['/'] from rfl,
    show (String.mk (' ' :: (mn.toList ++ '/' :: (avg.toList ++ '/' ::
      (mx.toList ++ '/' :: (mdev.toList ++ " ms\n".toList)))))).toList =
      (' ' :: mn.toList) ++ '/' :: (avg.toList ++ '/' ::
        (mx.toList ++ '/' :: (mdev.toList ++ " ms\n".toList))) from rfl]
  rw [pySplitGo_singleton_skip '/' _ hw1 [] _,
    pySplitGo_singleton_skip '/' _ havg' [] _]
  simp [mk_toList]

/-- **C7**: each probe task requests exactly 3 echo replies
(`['ping', '-c', '3', ip]`), the value it parses from the prober's summary
line is the `avg` field — the arithmetic mean round-trip time of the
successful replies — and the task writes exactly one latencies entry,
keyed by its own target (and none at all on failure). -/
theorem C7_three_echoes_mean_single_write (ip preamble mn avg mx mdev : String)
    (samples : List ℚ)
    (hmn : '=' ∉ mn.toList) (havg : '=' ∉ avg.toList)
    (hmx : '=' ∉ mx.toList) (hmdev : '=' ∉ mdev.toList)
    (hmn' : '/' ∉ mn.toList) (havg' : '/' ∉ avg.toList) :
    echoRequests (pingCmd ip) = 3 ∧
      parseAvg (pingOutput preamble mn avg mx mdev) = avg ∧
      pingTask ip (some samples) = some (ip, samplesMean samples) ∧
      (pingTask ip (some samples)).toList.length = 1 ∧
      pingTask ip none = none :=
  ⟨rfl, parseAvg_pingOutput preamble mn avg mx mdev hmn havg hmx hmdev hmn' havg',
    rfl, rfl, rfl⟩

/-- Witness for C7 on a realistic `ping -c 3` output. -/
theorem C7_three_echoes_mean_single_write_witness :
    echoRequests (pingCmd "1.2.3.4") = 3 ∧
      parseAvg (pingOutput "64 bytes from 1.2.3.4: icmp_seq=1 ttl=57 time=10.1 ms\n"
        "10.1" "12.2" "15.3" "1.1") = "12.2" ∧
      pingTask "1.2.3.4" (some [10, 12, 14]) =
        some ("1.2.3.4", samplesMean [10, 12, 14]) ∧
      (pingTask "1.2.3.4" (some [10, 12, 14])).toList.length = 1 ∧
      pingTask "1.2.3.4" (none : Option (List ℚ)) = none :=
  C7_three_echoes_mean_single_write "1.2.3.4"
    "64 bytes from 1.2.3.4: icmp_seq=1 ttl=57 time=10.1 ms\n"
    "10.1" "12.2" "15.3" "1.1" [10, 12, 14]
    (by decide) (by decide) (by decide) (by decide) (by decide) (by decide)

theorem strContains_self (s : String) : strContains s s = true :=
  strContains_iff.mpr List.infix_rfl

theorem strContains_append_left (x y s : String) (h : strContains x s = true) :
    strContains (x ++ y) s = true := by
  rw [strContains_iff, toList_append]
  exact (strContains_iff.mp h).trans (List.IsPrefix.isInfix ⟨y.toList, rfl⟩)

theorem strContains_append_right (x y s : String) (h : strContains y s = true) :
    strContains (x ++ y) s = true := by
  rw [strContains_iff, toList_append]
  exact (strContains_iff.mp h).trans (List.IsSuffix.isInfix ⟨x.toList, rfl⟩)

/-- **C8**: the data rows of `Latencies.__str__` are the latencies entries
stably sorted in ascending order of latency — the row count equals the
number of latencies entries, the sorted entry list is a permutation of the
input — and every row carries the resolved profile name, the target ip and
the formatted latency.  (The renderer is a pure function by embedding.) -/
theorem C8_render_sorted_rows (lats : List (String × ℚ))
    (ips : List (String × String)) (name ip : String) (v : ℚ) :
    (renderRows lats ips).length = lats.length ∧
      List.Pairwise (fun p q : String × ℚ => p.2 ≤ q.2) (sortedByLatency lats) ∧
      List.Perm (sortedByLatency lats) lats ∧
      strContains (tableRow name ip v) name = true ∧
      strContains (tableRow name ip v) ip = true ∧
      strContains (tableRow name ip v) (fmtFixed2 v) = true := by
  refine ⟨?_, ?_, ?_, ?_, ?_, ?_⟩
  · rw [renderRows, List.length_map, sortedByLatency, List.length_mergeSort]
  · rw [sortedByLatency]
    refine (List.sorted_mergeSort ?_ ?_ lats).imp ?_
    · intro a b c hab hbc
      rw [decide_eq_true_eq] at *
      exact le_trans hab hbc
    · intro a b
      rcases le_total a.2 b.2 with h | h <;> simp [h]
    · intro a b hab
      rwa [decide_eq_true_eq] at hab
  · exact List.mergeSort_perm lats _
  · rw [tableRow]
    apply strContains_append_left
    apply strContains_append_left
    apply strContains_append_left
    apply strContains_append_left
    apply strContains_append_left
    apply strContains_append_right
    rw [padRight]
    exact strContains_append_left _ _ _ (strContains_self name)
  · rw [tableRow]
    apply strContains_append_left
    apply strContains_append_left
    apply strContains_append_left
    apply strContains_append_right
    rw [padRight]
    exact strContains_append_left _ _ _ (strContains_self ip)
  · rw [tableRow]
    apply strContains_append_left
    apply strContains_append_right
    rw [padLeft]
    exact strContains_append_right _ _ _ (strContains_self (fmtFixed2 v))

/-- **C10**: the catalog join key is the profile name's segment after its
final `' - '` separator (`i.split(' - ')[-1]`); the probe target is the
ping field's colon-free segment before its first `':'`; the name reported
by `get_fastest` is `'PIA - '` concatenated with the joined record's
display name; and that equals the original configured profile name only
when the name splits into exactly two segments, i.e. contains exactly one
`' - '` separator. -/
theorem C10_join_key_and_reconstruction :
    (∀ (region : String) (dir : List String) (nm : String),
      nm ∈ consOf region dir ↔
        ∃ con ∈ get_pia_connections region dir, nm = lastSeg con) ∧
      (∀ s : String, lastSeg s = s ∨ ∃ pre : String, s = pre ++ " - " ++ lastSeg s) ∧
      (∀ s : String, strContains (beforeColon s) ":" = false ∧
        (beforeColon s = s ∨ ∃ suf : String, s = beforeColon s ++ ":" ++ suf)) ∧
      (∀ (lats : List (String × ℚ)) (ips : List (String × String)) (k : String)
        (v : ℚ) (n : String),
        argminFirst lats = some (k, v) → pyDictGet ips k = some n →
          get_fastest lats ips = .ok ("PIA - " ++ n)) ∧
      ∀ con : String, "PIA - " ++ lastSeg con = con →
        (pySplit con " - ").length = 2 := by
  refine ⟨?_, lastSeg_eq_self_or_split, beforeColon_spec, ?_,
    reconstruct_implies_two_segments⟩
  · intro region dir nm
    rw [consOf, List.mem_map]
    constructor
    · rintro ⟨con, hcon, rfl⟩
      exact ⟨con, hcon, rfl⟩
    · rintro ⟨con, hcon, rfl⟩
      exact ⟨con, hcon, rfl⟩
  · intro lats ips k v n h1 h2
    rw [show get_fastest lats ips =
      (match argminFirst lats with
        | none => .error .noReachableServer
        | some p =>
          match pyDictGet ips p.1 with
          | none => .error .keyError
          | some n => .ok ("PIA - " ++ n)) from rfl, h1]
    show (match pyDictGet ips k with
      | none => Except.error FastestError.keyError
      | some n => Except.ok ("PIA - " ++ n)) = Except.ok ("PIA - " ++ n)
    rw [h2]

unseal pySplitGo in
/-- Witness for C10: the reported name on a concrete run, and the
reconstruction test on the single-separator name `'PIA - US East'`. -/
theorem C10_join_key_and_reconstruction_witness :
    get_fastest [("8.8.8.8", (9 : ℚ))] [("8.8.8.8", "US East")] =
        .ok ("PIA - " ++ "US East") ∧
      (pySplit "PIA - US East" " - ").length = 2 :=
  ⟨C10_join_key_and_reconstruction.2.2.2.1 [("8.8.8.8", (9 : ℚ))]
      [("8.8.8.8", "US East")] "8.8.8.8" 9 "US East" rfl rfl,
    C10_join_key_and_reconstruction.2.2.2.2 "PIA - US East" rfl⟩

end Pypia
